import Mathlib

/-!
Block-wise FIR filter with a carried halo (`lpf.cpp`).

A shallow embedding of the streaming low-pass filter of `lpf.cpp`.

* `double` values are modelled by rationals (exact arithmetic).
* `std::vector<double>` is a `List ℚ`; an iterator into `halo_and_block` is
  the offset from `std::begin(halo_and_block)`.
* Dereferencing an iterator outside of the vector is undefined behaviour in
  the program; the embedding returns `none` there.
* The weights of the filter are arbitrary values (the program draws them from
  a random generator), so they are a parameter of the embedding.
-/

namespace Lpf

/-! ## The embedding -/

/-- Dereference of the iterator `std::begin(buf) + j`. -/
def deref (buf : List ℚ) (j : Int) : Option ℚ :=
  if j < 0 then none else buf[j.toNat]?

/-- `std::inner_product(first1, last1, first2, init)`: the first range is the
list `ws`, the second range starts at offset `first2` of `buf`.  The
accumulator is updated front to back by `acc = acc + (*first1) * (*first2)`. -/
def inner_product (ws : List ℚ) (buf : List ℚ) (first2 : Int) (init : ℚ) : Option ℚ :=
  match ws with
  | [] => some init
  | w :: rest =>
    match deref buf first2 with
    | none => none
    | some v => inner_product rest buf (first2 + 1) (init + w * v)

/-- The class `LowPassFilter`: the weights and the iterator `m_data_block`,
kept as its offset into `halo_and_block`. -/
structure LowPassFilter where
  m_weights : List ℚ
  m_data_block : Nat
deriving Repr

/-- The offset `m_data_block + i - m_weights.size()` at which the window of
`operator()(i)` starts. -/
def LowPassFilter.windowStart (f : LowPassFilter) (i : Int) : Int :=
  (f.m_data_block : Int) + i - (f.m_weights.length : Int)

/-- `LowPassFilter::operator()(i)`, reading the buffer `buf`. -/
def LowPassFilter.call (f : LowPassFilter) (buf : List ℚ) (i : Int) : Option ℚ :=
  inner_product f.m_weights buf (f.windowStart i) 0

/-- `std::transform(begin(indices), end(indices), begin(processed_block), lpf)`:
the list of the values `lpf(i)` for `i` in `indices`, front to back. -/
def transform (f : LowPassFilter) (buf : List ℚ) : List Nat → Option (List ℚ)
  | [] => some []
  | i :: rest =>
    match f.call buf (i : Int) with
    | none => none
    | some v =>
      match transform f buf rest with
      | none => none
      | some vs => some (v :: vs)

/-- `std::copy(first, first + n, d_first)` inside one vector: `n` element-wise
assignments `buf[dst] = buf[src]`, front to back. -/
def std_copy (buf : List ℚ) (src dst : Nat) : Nat → Option (List ℚ)
  | 0 => some buf
  | n + 1 =>
    match buf[src]? with
    | none => none
    | some v => if dst < buf.length then std_copy (buf.set dst v) (src + 1) (dst + 1) n else none

/-- The halo rotation at the end of an iteration:
`std::copy(end(halo_and_block) - halo_size, end(halo_and_block), begin(halo_and_block))`. -/
def rotate (halo_size : Nat) (buf : List ℚ) : Option (List ℚ) :=
  if halo_size ≤ buf.length then std_copy buf (buf.length - halo_size) 0 halo_size else none

/-- The input stream: the values not yet read and the fail bit. -/
structure Reader where
  data : List ℚ
  fail : Bool
deriving Repr, DecidableEq

/-- The values delivered by `reader.read` for `count` elements and the stream
afterwards.  A stream that has failed delivers nothing; a stream with fewer
than `count` values left delivers those and fails. -/
def Reader.read (r : Reader) (count : Nat) : List ℚ × Reader :=
  if r.fail then ([], r)
  else if count ≤ r.data.length then (r.data.take count, { data := r.data.drop count, fail := false })
  else (r.data, { data := [], fail := true })

/-- Storing the values `vs` into `buf` from offset `pos` on. -/
def store (buf : List ℚ) (pos : Nat) : List ℚ → List ℚ
  | [] => buf
  | v :: vs => store (buf.set pos v) (pos + 1) vs

/-- The state of the loop of `main`: the working buffer, the input stream and
the values written to the output stream so far. -/
structure LoopState where
  halo_and_block : List ℚ
  reader : Reader
  writer : List ℚ
deriving Repr

/-- The first statement of the loop body: `reader.read` into the block region
of the working buffer. -/
def readBlock (block_data_size halo_size : Nat) (s : LoopState) : LoopState :=
  let res := s.reader.read block_data_size
  { s with halo_and_block := store s.halo_and_block halo_size res.1, reader := res.2 }

/-- One iteration of the loop of `main`: read the next block, filter it, write
the filtered block, rotate the halo. -/
def loopBody (lpf : LowPassFilter) (block_data_size halo_size : Nat) (s : LoopState) :
    Option LoopState :=
  let s1 := readBlock block_data_size halo_size s
  match transform lpf s1.halo_and_block (List.range block_data_size) with
  | none => none
  | some processed_block =>
    match rotate halo_size s1.halo_and_block with
    | none => none
    | some buf => some { halo_and_block := buf, reader := s1.reader,
                         writer := s1.writer ++ processed_block }

/-- The loop `for (int i = 0; i < n_blocks; i++)`, as `n` iterations of the body. -/
def loop (lpf : LowPassFilter) (block_data_size halo_size : Nat) : Nat → LoopState → Option LoopState
  | 0, s => some s
  | n + 1, s =>
    match loopBody lpf block_data_size halo_size s with
    | none => none
    | some s1 => loop lpf block_data_size halo_size n s1

/-- The constant `n_blocks = std::floor(input_data_size / block_data_size)`. -/
def n_blocks (input_data_size block_data_size : Nat) : Nat :=
  input_data_size / block_data_size

/-- The state before the loop: a working buffer of `block_data_size + halo_size`
zeros, the input stream at its start, nothing written. -/
def initState (block_data_size halo_size : Nat) (input : List ℚ) : LoopState :=
  { halo_and_block := List.replicate (block_data_size + halo_size) 0,
    reader := { data := input, fail := false },
    writer := [] }

/-- The filtering part of `main` for weights `weights`, block size
`block_data_size`, halo size `halo_size` and an input file holding `input`
(so `input_data_size = input.length`).  The division by a zero block size is
undefined. -/
def main (weights : List ℚ) (block_data_size halo_size : Nat) (input : List ℚ) : Option LoopState :=
  if block_data_size = 0 then none
  else
    loop { m_weights := weights, m_data_block := halo_size } block_data_size halo_size
      (n_blocks input.length block_data_size) (initState block_data_size halo_size input)

/-- The output stream of `main`. -/
def mainOutput (weights : List ℚ) (block_data_size halo_size : Nat) (input : List ℚ) :
    Option (List ℚ) :=
  (main weights block_data_size halo_size input).map LoopState.writer

/-! ## Specification-side definitions -/

/-- The input `x` extended by zeros at negative positions (and past its end). -/
def extended (x : List ℚ) (p : Int) : ℚ :=
  if p < 0 then 0 else x.getD p.toNat 0

/-- The one-pass filter of the specification, a second definition that follows
the specification and not the program: the sample
`y[p] = Σ_{k=0}^{L-1} w[k] * x~[p - L + k]` of the whole sequence filtered as
a single block. -/
def onePassAt (w x : List ℚ) (p : Nat) : ℚ :=
  ∑ k in Finset.range w.length, w.getD k 0 * extended x ((p : Int) - (w.length : Int) + (k : Int))

/-- The one-pass filter of the specification: the first `len` samples of the
sequence filtered as a single block. -/
def onePass (w x : List ℚ) (len : Nat) : List ℚ :=
  (List.range len).map (onePassAt w x)

/-- The state of the loop after `b` iterations, for weights `w` and input `x`:
the halo holds the `H` input samples before position `b * B` (zeros before
the start of the input), the stream has delivered `b * B` values and the
output is the one-pass result up to `b * B`. -/
def BlockInv (w x : List ℚ) (B H b : Nat) (s : LoopState) : Prop :=
  s.halo_and_block.length = B + H ∧
  (∀ j, j < H → s.halo_and_block[j]? = some (extended x (((b * B : Nat) : Int) - (H : Int) + (j : Int)))) ∧
  s.reader = { data := x.drop (b * B), fail := false } ∧
  s.writer = onePass w x (b * B)

/-- The inner product of two lists, term by term. -/
def dot (a b : List ℚ) : ℚ :=
  (List.zipWith (fun u v => u * v) a b).sum

/-- The `L` consecutive samples of `buf` that end just before position `H + i`:
the indices `H + i - L .. H + i - 1`. -/
def windowBefore (buf : List ℚ) (H i L : Nat) : List ℚ :=
  (buf.drop (H + i - L)).take L

/-- The window of the specification's prose, a second definition that follows
the specification and not the program: the `L` consecutive samples of `buf`
that end with position `H + i` itself, the indices `H + i - L + 1 .. H + i`. -/
def windowIncluding (buf : List ℚ) (H i L : Nat) : List ℚ :=
  (buf.drop (H + i + 1 - L)).take L

/-- The sequence `a * x + y`, element by element. -/
def axpy (a : ℚ) (x y : List ℚ) : List ℚ :=
  List.zipWith (fun u v => a * u + v) x y

/-! ## Auxiliary lemmas -/

theorem deref_natCast (buf : List ℚ) (j : Nat) : deref buf (j : Int) = buf[j]? := by
  simp [deref]

theorem deref_neg (buf : List ℚ) (j : Int) (h : j < 0) : deref buf j = none := by
  simp [deref, h]

theorem inner_product_eq (ws buf : List ℚ) (start : Nat) (init : ℚ)
    (h : start + ws.length ≤ buf.length) :
    inner_product ws buf (start : Int) init
      = some (init + ∑ k in Finset.range ws.length, ws.getD k 0 * buf.getD (start + k) 0) := by
  induction ws generalizing start init with
  | nil => simp [inner_product]
  | cons w rest ih =>
    have hlt : start < buf.length := by simp at h; omega
    have hrest : (start + 1) + rest.length ≤ buf.length := by simp at h; omega
    have hcast : ((start : Int) + 1) = ((start + 1 : Nat) : Int) := by push_cast; ring
    rw [inner_product, deref_natCast, List.getElem?_eq_getElem hlt]
    simp only []
    rw [hcast, ih (start + 1) _ hrest, List.length_cons, Finset.sum_range_succ']
    simp only [List.getD_cons_succ, List.getD_cons_zero, Nat.add_zero]
    have hget : buf.getD start 0 = buf[start] := by
      simp [List.getD_eq_getElem?_getD, List.getElem?_eq_getElem hlt]
    rw [hget]
    congr 1
    have : ∀ k, start + 1 + k = start + (k + 1) := by intro k; omega
    simp only [this]
    ring

theorem store_length (vs buf : List ℚ) (pos : Nat) : (store buf pos vs).length = buf.length := by
  induction vs generalizing buf pos with
  | nil => simp [store]
  | cons v vs ih => simp [store, ih]

theorem store_getElem_opt (vs buf : List ℚ) (pos j : Nat) (h : pos + vs.length ≤ buf.length) :
    (store buf pos vs)[j]? = if pos ≤ j ∧ j < pos + vs.length then vs[j - pos]? else buf[j]? := by
  induction vs generalizing buf pos with
  | nil =>
    have c : ¬ (pos ≤ j ∧ j < pos + ([] : List ℚ).length) := by simp
    rw [store, if_neg c]
  | cons v vs ih =>
    have h1 : (pos + 1) + vs.length ≤ (buf.set pos v).length := by simp at h ⊢; omega
    have hpos : pos < buf.length := by simp at h; omega
    rw [store, ih _ _ h1, List.getElem?_set]
    by_cases hj : j = pos
    · subst hj
      simp [hpos]
    · by_cases hlt : pos + 1 ≤ j
      · have e : j - pos = (j - (pos + 1)) + 1 := by omega
        have c1 : pos + 1 ≤ j ∧ j < pos + 1 + vs.length ↔ pos ≤ j ∧ j < pos + (v :: vs).length := by
          simp; omega
        by_cases hc : pos + 1 ≤ j ∧ j < pos + 1 + vs.length
        · rw [if_pos hc, if_pos (c1.mp hc), e, List.getElem?_cons_succ]
        · rw [if_neg hc, if_neg (fun hh => hc (c1.mpr hh)), if_neg (fun hh => hj hh.symm)]
      · have c1 : ¬ (pos + 1 ≤ j ∧ j < pos + 1 + vs.length) := by omega
        have c2 : ¬ (pos ≤ j ∧ j < pos + (v :: vs).length) := by omega
        rw [if_neg c1, if_neg c2, if_neg (fun hh => hj hh.symm)]

theorem std_copy_spec (n : Nat) (buf : List ℚ) (dst gap : Nat) (hgap : 0 < gap)
    (h : dst + gap + n ≤ buf.length) :
    ∃ out, std_copy buf (dst + gap) dst n = some out ∧ out.length = buf.length ∧
      ∀ j, out[j]? = if dst ≤ j ∧ j < dst + n then buf[j + gap]? else buf[j]? := by
  induction n generalizing buf dst with
  | zero =>
    refine ⟨buf, by simp [std_copy], rfl, fun j => ?_⟩
    have c : ¬ (dst ≤ j ∧ j < dst + 0) := by omega
    rw [if_neg c]
  | succ n ih =>
    have hsrc : dst + gap < buf.length := by omega
    have hdst : dst < buf.length := by omega
    have h1 : (dst + 1) + gap + n ≤ (buf.set dst buf[dst + gap]).length := by simp; omega
    obtain ⟨out, hout, hlen, hget⟩ := ih (buf.set dst buf[dst + gap]) (dst + 1) h1
    have e : dst + 1 + gap = dst + gap + 1 := by omega
    refine ⟨out, ?_, ?_, ?_⟩
    · rw [std_copy, List.getElem?_eq_getElem hsrc]
      simp only [hdst, if_true]
      rw [← e]; exact hout
    · simpa using hlen
    · intro j
      rw [hget j, List.getElem?_set, List.getElem?_set]
      by_cases hj : j = dst
      · subst hj
        have c1 : ¬ (j + 1 ≤ j ∧ j < j + 1 + n) := by omega
        have c2 : (j ≤ j ∧ j < j + (n + 1)) := by omega
        rw [if_neg c1, if_pos c2, if_pos rfl, if_pos hdst, List.getElem?_eq_getElem hsrc]
      · by_cases hc : dst + 1 ≤ j ∧ j < dst + 1 + n
        · have c2 : (dst ≤ j ∧ j < dst + (n + 1)) := by omega
          rw [if_pos hc, if_pos c2, if_neg (by omega)]
        · have c2 : ¬ (dst ≤ j ∧ j < dst + (n + 1)) := by omega
          rw [if_neg hc, if_neg c2, if_neg (fun hh => hj hh.symm)]


theorem extended_natCast (x : List ℚ) (p : Int) (n : Nat) (h : p = (n : Int)) :
    extended x p = x.getD n 0 := by
  subst h; simp [extended]

theorem extended_neg (x : List ℚ) (p : Int) (h : p < 0) : extended x p = 0 := by
  simp [extended, h]

theorem getD_of_getElem_opt (buf : List ℚ) (j : Nat) (v : ℚ) (h : buf[j]? = some v) :
    buf.getD j 0 = v := by
  simp [List.getD_eq_getElem?_getD, h]

/-- The value of `operator()(i)` for a window that lies inside the buffer. -/
theorem call_eq (w buf : List ℚ) (H i : Nat) (hL : w.length ≤ H) (hi : H + i ≤ buf.length) :
    LowPassFilter.call { m_weights := w, m_data_block := H } buf (i : Int)
      = some (∑ k in Finset.range w.length, w.getD k 0 * buf.getD (H + i - w.length + k) 0) := by
  have hs : LowPassFilter.windowStart { m_weights := w, m_data_block := H } (i : Int)
      = ((H + i - w.length : Nat) : Int) := by
    simp only [LowPassFilter.windowStart]; omega
  have hb : H + i - w.length + w.length ≤ buf.length := by omega
  rw [LowPassFilter.call, hs]
  show inner_product w buf _ 0 = _
  rw [inner_product_eq w buf _ 0 hb, zero_add]

theorem transform_eq (f : LowPassFilter) (buf : List ℚ) (g : Nat → ℚ) (idx : List Nat)
    (h : ∀ i, i ∈ idx → f.call buf (i : Int) = some (g i)) :
    transform f buf idx = some (idx.map g) := by
  induction idx with
  | nil => simp [transform]
  | cons i rest ih =>
    rw [transform, h i (by simp), ih (fun j hj => h j (by simp [hj]))]
    simp


theorem blockInv_init (w x : List ℚ) (B H : Nat) : BlockInv w x B H 0 (initState B H x) := by
  refine ⟨by simp [initState], ?_, by simp [initState], by simp [initState, onePass]⟩
  intro j hj
  rw [extended_neg _ _ (by omega)]
  simp [initState, List.getElem?_replicate]
  omega

/-- After the read of block `b` the whole working buffer is a window of the
zero-extended input. -/
theorem readBlock_spec (w x : List ℚ) (B H b : Nat) (s : LoopState)
    (hinv : BlockInv w x B H b s) (hx : (b + 1) * B ≤ x.length) :
    (readBlock B H s).halo_and_block.length = B + H ∧
    (∀ t, t < H + B → (readBlock B H s).halo_and_block[t]?
        = some (extended x (((b * B : Nat) : Int) - (H : Int) + (t : Int)))) ∧
    (readBlock B H s).reader = { data := x.drop ((b + 1) * B), fail := false } ∧
    (readBlock B H s).writer = onePass w x (b * B) := by
  obtain ⟨hlen, hhalo, hrd, hwr⟩ := hinv
  have hmul : (b + 1) * B = b * B + B := by ring
  generalize hP : b * B = P at *
  have hread : s.reader.read B = (List.take B (x.drop P), { data := x.drop (P + B), fail := false }) := by
    rw [hrd]
    simp [Reader.read, List.drop_drop]
    omega
  have htl : (List.take B (List.drop P x)).length = B := by simp; omega
  refine ⟨?_, ?_, ?_, ?_⟩
  · simp [readBlock, store_length, hlen]
  · intro t ht
    simp only [readBlock, hread]
    rw [store_getElem_opt _ _ _ _ (by rw [htl]; omega), htl]
    by_cases hc : H ≤ t ∧ t < H + B
    · rw [if_pos hc, List.getElem?_take_of_lt (by omega), List.getElem?_drop,
        extended_natCast x _ (P + (t - H)) (by omega)]
      have hlt : P + (t - H) < x.length := by omega
      simp [List.getD_eq_getElem?_getD, List.getElem?_eq_getElem hlt]
    · rw [if_neg hc]
      exact hhalo t (by omega)
  · simp [readBlock, hread, hmul]
  · simp [readBlock, hwr]

theorem rotate_spec (H B : Nat) (buf : List ℚ) (hB : 0 < B) (hlen : buf.length = B + H) :
    ∃ out, rotate H buf = some out ∧ out.length = buf.length ∧
      ∀ j, out[j]? = if j < H then buf[j + B]? else buf[j]? := by
  have hsrc : buf.length - H = 0 + B := by omega
  obtain ⟨out, h1, h2, h3⟩ := std_copy_spec H buf 0 B hB (by omega)
  refine ⟨out, ?_, h2, ?_⟩
  · rw [rotate, if_pos (by omega), hsrc]; exact h1
  · intro j
    rw [h3 j]
    by_cases hj : j < H
    · rw [if_pos hj, if_pos (by omega)]
    · rw [if_neg hj, if_neg (by omega)]

/-- One iteration of the loop takes the invariant of block `b` to the
invariant of block `b + 1`. -/
theorem loopBody_spec (w x : List ℚ) (B H b : Nat) (s : LoopState) (hB : 0 < B)
    (hL : w.length ≤ H) (hinv : BlockInv w x B H b s) (hx : (b + 1) * B ≤ x.length) :
    ∃ s1, loopBody { m_weights := w, m_data_block := H } B H s = some s1 ∧
      BlockInv w x B H (b + 1) s1 := by
  obtain ⟨hlen, hbuf, hrd, hwr⟩ := readBlock_spec w x B H b s hinv hx
  obtain ⟨out, hrot, holen, hoget⟩ := rotate_spec H B _ hB hlen
  have hmul : (b + 1) * B = b * B + B := by ring
  have htr : transform { m_weights := w, m_data_block := H } (readBlock B H s).halo_and_block
      (List.range B) = some ((List.range B).map (fun i => onePassAt w x (b * B + i))) := by
    apply transform_eq
    intro i hi
    have hi : i < B := List.mem_range.mp hi
    rw [call_eq w _ H i hL (by omega)]
    congr 1
    apply Finset.sum_congr rfl
    intro k hk
    have hk : k < w.length := Finset.mem_range.mp hk
    rw [getD_of_getElem_opt _ _ _ (hbuf (H + i - w.length + k) (by omega))]
    congr 2
    push_cast
    omega
  refine ⟨{ halo_and_block := out, reader := (readBlock B H s).reader,
            writer := (readBlock B H s).writer ++ (List.range B).map (fun i => onePassAt w x (b * B + i)) },
          ?_, ?_, ?_, ?_, ?_⟩
  · simp only [loopBody, htr, hrot]
  · simpa [hlen] using holen
  · intro j hj
    show out[j]? = _
    rw [hoget j, if_pos hj, hbuf (j + B) (by omega)]
    congr 2
    push_cast
    ring
  · exact hrd
  · show (readBlock B H s).writer ++ _ = _
    rw [hwr, hmul, onePass, onePass, List.range_add, List.map_append, List.map_map]
    rfl

theorem loop_spec (w x : List ℚ) (B H : Nat) (hB : 0 < B) (hL : w.length ≤ H) (n : Nat) :
    ∀ (b : Nat) (s : LoopState), BlockInv w x B H b s → (b + n) * B ≤ x.length →
      ∃ s1, loop { m_weights := w, m_data_block := H } B H n s = some s1 ∧
        BlockInv w x B H (b + n) s1 := by
  induction n with
  | zero => intro b s hinv _; exact ⟨s, rfl, hinv⟩
  | succ n ih =>
    intro b s hinv hx
    have hx1 : (b + 1) * B ≤ x.length := by
      refine le_trans (Nat.mul_le_mul_right B ?_) hx
      omega
    obtain ⟨s1, h1, hinv1⟩ := loopBody_spec w x B H b s hB hL hinv hx1
    have e : b + (n + 1) = b + 1 + n := by omega
    obtain ⟨s2, h2, hinv2⟩ := ih (b + 1) s1 hinv1 (by rw [← e]; exact hx)
    refine ⟨s2, ?_, by rw [e]; exact hinv2⟩
    rw [loop, h1]
    exact h2

/-- The run of `main` on a halo that is at least as long as the filter: the
loop ends in a state that satisfies the invariant of block `n_blocks`. -/
theorem main_spec (w x : List ℚ) (B H : Nat) (hB : 0 < B) (hL : w.length ≤ H) :
    ∃ s, main w B H x = some s ∧ BlockInv w x B H (n_blocks x.length B) s := by
  have hx : (0 + n_blocks x.length B) * B ≤ x.length := by
    rw [Nat.zero_add]; exact Nat.div_mul_le_self _ _
  obtain ⟨s, h1, h2⟩ := loop_spec w x B H hB hL (n_blocks x.length B) 0 _ (blockInv_init w x B H) hx
  refine ⟨s, ?_, by simpa using h2⟩
  rw [main, if_neg (by omega)]
  exact h1

theorem mainOutput_eq (w x : List ℚ) (B H : Nat) (hB : 0 < B) (hL : w.length ≤ H) :
    mainOutput w B H x = some (onePass w x (n_blocks x.length B * B)) := by
  obtain ⟨s, h1, h2⟩ := main_spec w x B H hB hL
  rw [mainOutput, h1, Option.map_some', h2.2.2.2]

theorem onePass_length (w x : List ℚ) (len : Nat) : (onePass w x len).length = len := by
  simp [onePass]

theorem onePass_getElem_opt (w x : List ℚ) (len p : Nat) (hp : p < len) :
    (onePass w x len)[p]? = some (onePassAt w x p) := by
  simp [onePass, List.getElem?_map, List.getElem?_range hp]

theorem n_blocks_mul (n B : Nat) (hB : 0 < B) : n_blocks (n * B) B = n := by
  simp [n_blocks, Nat.mul_div_cancel _ hB]

/-- C1. Continuity: for weights `w` of length `L ≥ 1`, block size `B ≥ 1`, halo
size `H ≥ L` and an input `x` of `n * B` samples, the loop of `main` returns,
and the concatenation of its `n` output blocks is the sequence `y` of length
`n * B` with `y[p] = Σ_{k<L} w[k] * x~[p - L + k]`, where `x~` is `x` extended by
zeros: the result is that of filtering the whole sequence as one block, and
it depends neither on `B` nor on `H`.  (The proof does not need `L ≥ 1`.) -/
theorem blockwise_equals_one_pass (w x : List ℚ) (B H n : Nat)
    (hB : 1 ≤ B) (hH : w.length ≤ H) (hx : x.length = n * B) :
    ∃ y, mainOutput w B H x = some y ∧ y.length = n * B ∧
      ∀ p, p < n * B →
        y[p]? = some (∑ k in Finset.range w.length,
          w.getD k 0 * extended x ((p : Int) - (w.length : Int) + (k : Int))) := by
  have hn : n_blocks x.length B = n := by rw [hx]; exact n_blocks_mul n B hB
  refine ⟨onePass w x (n * B), ?_, onePass_length _ _ _, ?_⟩
  · rw [mainOutput_eq w x B H hB hH, hn]
  · intro p hp
    rw [onePass_getElem_opt w x _ p hp, onePassAt]

theorem blockwise_equals_one_pass_witness :
    (1 ≤ 2 ∧ ([1, 2] : List ℚ).length ≤ 3 ∧
      ([5, 7, 9, 11] : List ℚ).length = 2 * 2) ∧
    ∃ y, mainOutput [1, 2] 2 3 [5, 7, 9, 11] = some y ∧ y.length = 2 * 2 ∧
      ∀ p : Nat, p < 2 * 2 →
        y[p]? = some (∑ k in Finset.range ([1, 2] : List ℚ).length,
          ([1, 2] : List ℚ).getD k 0 *
            extended [5, 7, 9, 11] ((p : Int) - (([1, 2] : List ℚ).length : Int) + (k : Int))) :=
  ⟨⟨by decide, by decide, by decide⟩,
    blockwise_equals_one_pass [1, 2] [5, 7, 9, 11] 2 3 2 (by decide) (by decide) (by decide)⟩

theorem transform_getElem_opt (f : LowPassFilter) (buf : List ℚ) (g : Nat → ℚ) (B i : Nat)
    (h : ∀ i, i < B → f.call buf (i : Int) = some (g i)) (hi : i < B) :
    ∃ out, transform f buf (List.range B) = some out ∧ out.length = B ∧ out[i]? = some (g i) := by
  refine ⟨(List.range B).map g, transform_eq f buf g _ (fun j hj => h j (List.mem_range.mp hj)),
    by simp, ?_⟩
  simp [List.getElem?_map, List.getElem?_range hi]

/-- C3. Per-sample output formula: for a buffer of length `H + B`, weights `w`
of length `L` with `1 ≤ L ≤ H` and `0 ≤ i < B`, `LowPassFilter::operator()(i)`
returns `Σ_{k<L} w[k] * buffer[H + i - L + k]`, and this is the value that
`std::transform` writes to `processed_block[i]`.  (As `L ≤ H` the index
`H + i - L + k` is a natural number, below `H + B`; the proof does not need
`1 ≤ L`.) -/
theorem call_formula (w buf : List ℚ) (B H i : Nat)
    (hH : w.length ≤ H) (hbuf : buf.length = H + B) (hi : i < B) :
    LowPassFilter.call { m_weights := w, m_data_block := H } buf (i : Int)
      = some (∑ k in Finset.range w.length, w.getD k 0 * buf.getD (H + i - w.length + k) 0) ∧
    ∃ processed_block,
      transform { m_weights := w, m_data_block := H } buf (List.range B) = some processed_block ∧
      processed_block.length = B ∧
      processed_block[i]?
        = some (∑ k in Finset.range w.length, w.getD k 0 * buf.getD (H + i - w.length + k) 0) := by
  refine ⟨call_eq w buf H i hH (by omega), ?_⟩
  exact transform_getElem_opt _ buf
    (fun i => ∑ k in Finset.range w.length, w.getD k 0 * buf.getD (H + i - w.length + k) 0) B i
    (fun j hj => call_eq w buf H j hH (by omega)) hi

theorem call_formula_witness :
    LowPassFilter.call { m_weights := [1, 2], m_data_block := 2 } [3, 4, 5, 6] ((1 : Nat) : Int)
      = some (∑ k in Finset.range ([1, 2] : List ℚ).length,
          ([1, 2] : List ℚ).getD k 0 * ([3, 4, 5, 6] : List ℚ).getD (2 + 1 - ([1, 2] : List ℚ).length + k) 0) ∧
    ∃ processed_block,
      transform { m_weights := [1, 2], m_data_block := 2 } [3, 4, 5, 6] (List.range 2)
        = some processed_block ∧
      processed_block.length = 2 ∧
      processed_block[1]?
        = some (∑ k in Finset.range ([1, 2] : List ℚ).length,
          ([1, 2] : List ℚ).getD k 0 * ([3, 4, 5, 6] : List ℚ).getD (2 + 1 - ([1, 2] : List ℚ).length + k) 0) :=
  call_formula [1, 2] [3, 4, 5, 6] 2 2 1 (by decide) (by decide) (by decide)

/-- C9. In-bounds reads: for `H ≥ L`, `B ≥ 1`, `i < B` and `k < L` (so `L ≥ 1`) the
buffer index `H + i - L + k` read by `operator()(i)` lies in `[0, H + B)`; so
on every buffer of length `H + B` the read and the call return a value, and
the whole loop of `main` returns for every input (no block reaches the
out-of-bounds branch). -/
theorem window_in_bounds (w : List ℚ) (B H i k : Nat)
    (hH : w.length ≤ H) (hB : 1 ≤ B) (hi : i < B) (hk : k < w.length) :
    0 ≤ LowPassFilter.windowStart { m_weights := w, m_data_block := H } (i : Int) + (k : Int) ∧
    LowPassFilter.windowStart { m_weights := w, m_data_block := H } (i : Int) + (k : Int)
      < ((H + B : Nat) : Int) ∧
    (∀ buf : List ℚ, buf.length = H + B →
      (deref buf (LowPassFilter.windowStart { m_weights := w, m_data_block := H } (i : Int)
        + (k : Int))).isSome = true ∧
      (LowPassFilter.call { m_weights := w, m_data_block := H } buf (i : Int)).isSome = true) ∧
    ∀ x : List ℚ, (main w B H x).isSome = true := by
  have hs : LowPassFilter.windowStart { m_weights := w, m_data_block := H } (i : Int) + (k : Int)
      = ((H + i - w.length + k : Nat) : Int) := by
    simp only [LowPassFilter.windowStart]; omega
  refine ⟨by rw [hs]; omega, by rw [hs]; omega, ?_, ?_⟩
  · intro buf hbuf
    constructor
    · have hlt : H + i - w.length + k < buf.length := by omega
      rw [hs, deref_natCast, List.getElem?_eq_getElem hlt]
      rfl
    · rw [call_eq w buf H i hH (by omega)]
      rfl
  · intro x
    obtain ⟨s, hs, _⟩ := main_spec w x B H hB hH
    rw [hs]
    rfl

theorem window_in_bounds_witness :
    (([1, 2] : List ℚ).length ≤ 2 ∧ 1 ≤ 3 ∧ 0 < 3 ∧
      0 < ([1, 2] : List ℚ).length) ∧
    0 ≤ LowPassFilter.windowStart { m_weights := [1, 2], m_data_block := 2 } ((0 : Nat) : Int)
        + ((0 : Nat) : Int) :=
  ⟨⟨by decide, by decide, by decide, by decide⟩,
    (window_in_bounds [1, 2] 3 2 0 0 (by decide) (by decide) (by decide) (by decide)).1⟩

theorem getD_replicate_zero (L k : Nat) : (List.replicate L (0 : ℚ)).getD k 0 = 0 := by
  simp [List.getD_eq_getElem?_getD, List.getElem?_replicate]
  split <;> rfl

theorem onePassAt_zero_weights (L : Nat) (x : List ℚ) (p : Nat) :
    onePassAt (List.replicate L 0) x p = 0 := by
  rw [onePassAt]
  apply Finset.sum_eq_zero
  intro k _
  rw [getD_replicate_zero, zero_mul]

theorem onePass_zero_weights (L : Nat) (x : List ℚ) (len : Nat) :
    onePass (List.replicate L 0) x len = List.replicate len 0 := by
  apply List.ext_getElem?
  intro p
  by_cases hp : p < len
  · rw [onePass_getElem_opt _ _ _ _ hp, onePassAt_zero_weights, List.getElem?_replicate, if_pos hp]
  · rw [List.getElem?_eq_none (by rw [onePass_length]; omega),
      List.getElem?_eq_none (by rw [List.length_replicate]; omega)]

/-- C10. Zero-weight identity: if all `L` weights are `0` then, for every input,
block size `B ≥ 1` and halo size `H ≥ L`, the output stream of `main` consists
of zeros only, and on every buffer of length `H + B` every call
`operator()(i)` with `i < B` returns `0`. -/
theorem zero_weights_output (L B H : Nat) (x : List ℚ) (hB : 1 ≤ B) (hH : L ≤ H) :
    mainOutput (List.replicate L 0) B H x
      = some (List.replicate (n_blocks x.length B * B) 0) ∧
    ∀ (buf : List ℚ) (i : Nat), buf.length = H + B → i < B →
      LowPassFilter.call { m_weights := List.replicate L 0, m_data_block := H } buf (i : Int)
        = some 0 := by
  have hH1 : (List.replicate L (0 : ℚ)).length ≤ H := by simpa using hH
  constructor
  · rw [mainOutput_eq _ x B H hB hH1, onePass_zero_weights]
  · intro buf i hbuf hi
    rw [call_eq _ buf H i hH1 (by omega)]
    congr 1
    apply Finset.sum_eq_zero
    intro k _
    rw [getD_replicate_zero, zero_mul]

theorem zero_weights_output_witness :
    (1 ≤ 2 ∧ 2 ≤ 3) ∧
    mainOutput (List.replicate 2 0) 2 3 [5, 7, 9, 11, 13]
      = some (List.replicate (n_blocks ([5, 7, 9, 11, 13] : List ℚ).length 2 * 2) 0) :=
  ⟨⟨by decide, by decide⟩, (zero_weights_output 2 2 3 [5, 7, 9, 11, 13] (by decide) (by decide)).1⟩

/-- C7. Halo rotation step: for a buffer `b` of length `H + B` with `B ≥ 1`, the
front-to-back copy of the last `H` elements to the front returns a buffer of
the same length with `new[j] = b[B + j]` for `j < H` (also when the ranges
overlap, `H > B`) and `new[j] = b[j]` for `H ≤ j < H + B`. -/
theorem halo_rotation (H B : Nat) (b : List ℚ) (hB : 1 ≤ B) (hlen : b.length = H + B) :
    ∃ new, rotate H b = some new ∧ new.length = b.length ∧
      (∀ j, j < H → ∃ v, b[B + j]? = some v ∧ new[j]? = some v) ∧
      (∀ j, H ≤ j → j < H + B → ∃ v, b[j]? = some v ∧ new[j]? = some v) := by
  obtain ⟨out, h1, h2, h3⟩ := rotate_spec H B b hB (by omega)
  refine ⟨out, h1, h2, ?_, ?_⟩
  · intro j hj
    have hlt : B + j < b.length := by omega
    refine ⟨b[B + j], List.getElem?_eq_getElem hlt, ?_⟩
    rw [h3 j, if_pos hj, Nat.add_comm j B, List.getElem?_eq_getElem hlt]
  · intro j hj1 hj2
    have hlt : j < b.length := by omega
    refine ⟨b[j], List.getElem?_eq_getElem hlt, ?_⟩
    rw [h3 j, if_neg (by omega), List.getElem?_eq_getElem hlt]

theorem halo_rotation_witness :
    (1 ≤ 1 ∧ ([1, 2, 3, 4] : List ℚ).length = 3 + 1) ∧
    ∃ new, rotate 3 [1, 2, 3, 4] = some new ∧ new.length = ([1, 2, 3, 4] : List ℚ).length ∧
      (∀ j, j < 3 → ∃ v, ([1, 2, 3, 4] : List ℚ)[1 + j]? = some v ∧ new[j]? = some v) ∧
      (∀ j, 3 ≤ j → j < 3 + 1 → ∃ v, ([1, 2, 3, 4] : List ℚ)[j]? = some v ∧ new[j]? = some v) :=
  ⟨⟨by decide, by decide⟩, halo_rotation 3 1 [1, 2, 3, 4] (by decide) (by decide)⟩

theorem transform_undefined (w buf : List ℚ) (B H : Nat) (hB : 1 ≤ B) (hH : H < w.length) :
    transform { m_weights := w, m_data_block := H } buf (List.range B) = none := by
  obtain ⟨n, rfl⟩ : ∃ n, B = n + 1 := ⟨B - 1, by omega⟩
  cases w with
  | nil => simp at hH
  | cons w0 rest =>
    have hneg : LowPassFilter.windowStart { m_weights := w0 :: rest, m_data_block := H }
        ((0 : Nat) : Int) < 0 := by
      simp only [LowPassFilter.windowStart, List.length_cons] at hH ⊢
      omega
    rw [List.range_succ_eq_map, transform, LowPassFilter.call, inner_product, deref_neg _ _ hneg]

theorem loop_undefined (w : List ℚ) (B H : Nat) (hB : 1 ≤ B) (hH : H < w.length) (n : Nat)
    (s : LoopState) : loop { m_weights := w, m_data_block := H } B H (n + 1) s = none := by
  rw [loop, loopBody]
  simp only [transform_undefined w _ B H hB hH]

theorem extended_take (x : List ℚ) (m : Nat) (q : Int) (hq : q < (m : Int)) :
    extended (x.take m) q = extended x q := by
  by_cases hneg : q < 0
  · rw [extended_neg _ _ hneg, extended_neg _ _ hneg]
  · obtain ⟨n, rfl⟩ : ∃ n : Nat, q = (n : Int) := ⟨q.toNat, by omega⟩
    have hn : n < m := by omega
    rw [extended_natCast _ _ n rfl, extended_natCast _ _ n rfl, List.getD_eq_getElem?_getD,
      List.getD_eq_getElem?_getD, List.getElem?_take_of_lt hn]

theorem onePass_take (w x : List ℚ) (m : Nat) : onePass w (x.take m) m = onePass w x m := by
  apply List.map_congr_left
  intro p hp
  have hp : p < m := List.mem_range.mp hp
  apply Finset.sum_congr rfl
  intro k hk
  have hk : k < w.length := Finset.mem_range.mp hk
  rw [extended_take x m _ (by omega)]

theorem main_eq_loop (w x : List ℚ) (B H : Nat) (hB : 1 ≤ B) :
    main w B H x = loop { m_weights := w, m_data_block := H } B H (x.length / B)
      (initState B H x) := by
  rw [main, if_neg (by omega), n_blocks]

theorem length_take_blocks (x : List ℚ) (B : Nat) :
    (x.take (x.length / B * B)).length = x.length / B * B := by
  rw [List.length_take]
  exact Nat.min_eq_left (Nat.div_mul_le_self _ _)

/-- C6. Truncation law: for an input of `N` samples and block size `B ≥ 1` the
loop of `main` runs `floor(N / B)` iterations; its output stream is the one it
produces on the first `floor(N / B) * B` input samples alone; whenever it
returns, the output stream has `floor(N / B) * B` values and the input stream
still holds the trailing `N mod B` samples, unread and without a failed read;
it returns whenever the halo is at least as long as the filter.  For
`N = 1000`, `B = 100`: `n_blocks = 10` and 1000 output values. -/
theorem truncation_law (w x : List ℚ) (B H : Nat) (hB : 1 ≤ B) :
    main w B H x = loop { m_weights := w, m_data_block := H } B H (x.length / B)
      (initState B H x) ∧
    mainOutput w B H x = mainOutput w B H (x.take (x.length / B * B)) ∧
    (∀ s, main w B H x = some s →
      s.writer.length = x.length / B * B ∧
      s.reader = { data := x.drop (x.length / B * B), fail := false } ∧
      s.reader.data.length = x.length % B) ∧
    (w.length ≤ H → ∃ s, main w B H x = some s) ∧
    n_blocks 1000 100 = 10 ∧
    (x.length = 1000 → B = 100 → w.length ≤ H →
      ∃ out, mainOutput w B H x = some out ∧ out.length = 1000) := by
  have hdrop : (x.drop (x.length / B * B)).length = x.length % B := by
    rw [List.length_drop]
    have := Nat.div_add_mod x.length B
    rw [Nat.mul_comm] at this
    omega
  have hnb : n_blocks (x.take (x.length / B * B)).length B = x.length / B := by
    rw [length_take_blocks]; exact n_blocks_mul _ B hB
  refine ⟨main_eq_loop w x B H hB, ?_, ?_, ?_, by decide, ?_⟩
  · by_cases hH : w.length ≤ H
    · rw [mainOutput_eq w x B H hB hH, mainOutput_eq w _ B H hB hH, hnb, n_blocks, onePass_take]
    · rw [mainOutput, mainOutput, main_eq_loop w x B H hB, main_eq_loop w _ B H hB,
        length_take_blocks, Nat.mul_div_cancel _ (by omega : 0 < B)]
      cases hq : x.length / B with
      | zero => simp [loop, initState]
      | succ n => rw [loop_undefined w B H hB (by omega), loop_undefined w B H hB (by omega)]
  · intro s hs
    by_cases hH : w.length ≤ H
    · obtain ⟨s1, h1, h2⟩ := main_spec w x B H hB hH
      rw [hs] at h1
      cases h1
      obtain ⟨_, _, hrd, hwr⟩ := h2
      rw [n_blocks] at hrd hwr
      refine ⟨by rw [hwr, onePass_length], hrd, ?_⟩
      rw [hrd]; exact hdrop
    · rw [main_eq_loop w x B H hB] at hs
      cases hq : x.length / B with
      | zero =>
        rw [hq, loop] at hs
        cases hs
        have hmod : x.length % B = x.length := by
          have := Nat.div_add_mod x.length B
          rw [hq] at this
          omega
        simp [initState, hmod]
      | succ n =>
        rw [hq, loop_undefined w B H hB (by omega)] at hs
        cases hs
  · intro hH
    obtain ⟨s, hs, _⟩ := main_spec w x B H hB hH
    exact ⟨s, hs⟩
  · intro hN hB100 hH
    refine ⟨_, mainOutput_eq w x B H hB hH, ?_⟩
    rw [onePass_length, hN, hB100]
    decide

theorem truncation_law_witness :
    1 ≤ 2 ∧
    mainOutput [1, 2] 2 2 [5, 7, 9, 11, 13]
      = mainOutput [1, 2] 2 2 (([5, 7, 9, 11, 13] : List ℚ).take
          (([5, 7, 9, 11, 13] : List ℚ).length / 2 * 2)) :=
  ⟨by decide, (truncation_law [1, 2] [5, 7, 9, 11, 13] 2 2 (by decide)).2.1⟩

theorem block_le_length (x : List ℚ) (B b : Nat) (hb : b < n_blocks x.length B) :
    (b + 1) * B ≤ x.length :=
  le_trans (Nat.mul_le_mul_right B hb) (Nat.div_mul_le_self _ _)

/-- C8. Halo invariant across blocks: for `B ≥ 1`, a halo at least as long as
the filter, an input `x` and a block `b` of the run, the loop reaches block
`b`, and once the block is loaded the halo satisfies
`buffer[j] = x~[b * B - H + j]` for `j < H` (`x~` is `x` with zeros at negative
positions).  So the halo of the first block is all zeros, and the iteration
of a block with `b * B + B ≥ H` leaves the input samples
`[b * B + B - H, b * B + B)` in the first `H` buffer elements. -/
theorem halo_invariant (w x : List ℚ) (B H b : Nat) (hB : 1 ≤ B) (hH : w.length ≤ H)
    (hb : b < n_blocks x.length B) :
    ∃ s, loop { m_weights := w, m_data_block := H } B H b (initState B H x) = some s ∧
      (∀ j, j < H → (readBlock B H s).halo_and_block[j]?
          = some (extended x (((b * B : Nat) : Int) - (H : Int) + (j : Int)))) ∧
      (b = 0 → ∀ j, j < H → (readBlock B H s).halo_and_block[j]? = some 0) ∧
      ∃ s1, loopBody { m_weights := w, m_data_block := H } B H s = some s1 ∧
        (H ≤ b * B + B → ∀ j, j < H →
          ∃ v, x[b * B + B - H + j]? = some v ∧ s1.halo_and_block[j]? = some v) := by
  have hx1 : (b + 1) * B ≤ x.length := block_le_length x B b hb
  have hx0 : (0 + b) * B ≤ x.length := by
    refine le_trans (Nat.mul_le_mul_right B ?_) hx1
    omega
  obtain ⟨s, hs, hinv⟩ := loop_spec w x B H hB hH b 0 _ (blockInv_init w x B H) hx0
  rw [Nat.zero_add] at hinv
  obtain ⟨_, hbuf, _, _⟩ := readBlock_spec w x B H b s hinv hx1
  obtain ⟨s1, hs1, hinv1⟩ := loopBody_spec w x B H b s hB hH hinv hx1
  refine ⟨s, hs, fun j hj => hbuf j (by omega), ?_, s1, hs1, ?_⟩
  · intro hb0 j hj
    rw [hbuf j (by omega), extended_neg _ _ (by subst hb0; simp; omega)]
  · intro hge j hj
    have hmul : (b + 1) * B = b * B + B := by ring
    have hlt : b * B + B - H + j < x.length := by omega
    refine ⟨x[b * B + B - H + j], List.getElem?_eq_getElem hlt, ?_⟩
    rw [hinv1.2.1 j hj, extended_natCast x _ (b * B + B - H + j) (by rw [hmul]; omega),
      List.getD_eq_getElem?_getD, List.getElem?_eq_getElem hlt]
    rfl

theorem halo_invariant_witness :
    (1 ≤ 2 ∧ ([1, 2] : List ℚ).length ≤ 3 ∧ 1 < n_blocks ([5, 7, 9, 11, 13] : List ℚ).length 2) ∧
    ∃ s, loop { m_weights := [1, 2], m_data_block := 3 } 2 3 1 (initState 2 3 [5, 7, 9, 11, 13])
        = some s ∧
      (∀ j : Nat, j < 3 → (readBlock 2 3 s).halo_and_block[j]?
          = some (extended [5, 7, 9, 11, 13] (((1 * 2 : Nat) : Int) - ((3 : Nat) : Int) + (j : Int)))) ∧
      (1 = 0 → ∀ j, j < 3 → (readBlock 2 3 s).halo_and_block[j]? = some 0) ∧
      ∃ s1, loopBody { m_weights := [1, 2], m_data_block := 3 } 2 3 s = some s1 ∧
        (3 ≤ 1 * 2 + 2 → ∀ j, j < 3 →
          ∃ v, ([5, 7, 9, 11, 13] : List ℚ)[1 * 2 + 2 - 3 + j]? = some v ∧
            s1.halo_and_block[j]? = some v) :=
  ⟨⟨by decide, by decide, by decide⟩,
    halo_invariant [1, 2] [5, 7, 9, 11, 13] 2 3 1 (by decide) (by decide) (by decide)⟩

theorem dot_eq_sum (a b : List ℚ) :
    dot a b = ∑ k in Finset.range a.length, a.getD k 0 * b.getD k 0 := by
  induction a generalizing b with
  | nil => simp [dot]
  | cons a0 as ih =>
    cases b with
    | nil => simp [dot]
    | cons b0 bs =>
      have h := ih bs
      rw [dot] at h ⊢
      rw [List.zipWith_cons_cons, List.sum_cons, h, List.length_cons, Finset.sum_range_succ']
      simp only [List.getD_cons_succ, List.getD_cons_zero]
      ring

theorem getD_take_drop (buf : List ℚ) (s L k : Nat) (hk : k < L) :
    ((buf.drop s).take L).getD k 0 = buf.getD (s + k) 0 := by
  rw [List.getD_eq_getElem?_getD, List.getD_eq_getElem?_getD, List.getElem?_take_of_lt hk,
    List.getElem?_drop]

theorem dot_window (w buf : List ℚ) (s : Nat) :
    dot w ((buf.drop s).take w.length)
      = ∑ k in Finset.range w.length, w.getD k 0 * buf.getD (s + k) 0 := by
  rw [dot_eq_sum]
  apply Finset.sum_congr rfl
  intro k hk
  rw [getD_take_drop buf s _ k (Finset.mem_range.mp hk)]

theorem onePassAt_eq_dot (w x : List ℚ) (p : Nat) (hp : w.length ≤ p) :
    onePassAt w x p = dot w ((x.drop (p - w.length)).take w.length) := by
  rw [dot_window, onePassAt]
  apply Finset.sum_congr rfl
  intro k _
  rw [extended_natCast x _ (p - w.length + k) (by omega)]

/-- C4, as stated, fails: with the single weight `1`, `H = 1` and the buffer
`[0, 5, 7]`, the output for `i = 0` is the halo sample `0` and not the current
sample `5`, so it is not the inner product with the window that includes
position `H + i`; the current sample does not reach the output at all. -/
theorem window_including_current_fails :
    LowPassFilter.call { m_weights := [1], m_data_block := 1 } [0, 5, 7] ((0 : Nat) : Int)
      = some 0 ∧
    dot [1] (windowIncluding [0, 5, 7] 1 0 1) = 5 ∧
    LowPassFilter.call { m_weights := [1], m_data_block := 1 } [0, 5, 7] ((0 : Nat) : Int)
      ≠ some (dot [1] (windowIncluding [0, 5, 7] 1 0 1)) ∧
    LowPassFilter.call { m_weights := [1], m_data_block := 1 } [0, 6, 7] ((0 : Nat) : Int)
      = LowPassFilter.call { m_weights := [1], m_data_block := 1 } [0, 5, 7] ((0 : Nat) : Int) := by
  have h1 : LowPassFilter.call { m_weights := [1], m_data_block := 1 } [0, 5, 7] ((0 : Nat) : Int)
      = some 0 := by
    simp [LowPassFilter.call, LowPassFilter.windowStart, inner_product, deref]
  have h2 : dot [1] (windowIncluding [0, 5, 7] 1 0 1) = 5 := by
    simp [dot, windowIncluding]
  refine ⟨h1, h2, ?_, ?_⟩
  · rw [h1, h2]
    intro h
    have h5 : (0 : ℚ) = 5 := Option.some.inj h
    norm_num at h5
  · simp [LowPassFilter.call, LowPassFilter.windowStart, inner_product, deref]

/-- C4, amended.  The window ends just before the current sample: for weights
of length `L` with `1 ≤ L ≤ H`, a buffer of length `H + B` and `i < B`,
`operator()(i)` is the inner product of the weights with the `L` consecutive
buffer samples at the indices `H + i - L .. H + i - 1`, and it does not change
when the current sample, at index `H + i`, is replaced.  With `B = 100`,
`H = 10`, `L = 10` the first output of block 2 (position 100) is the inner
product of the weights with the last 10 samples of block 1. -/
theorem window_before_current (w buf : List ℚ) (B H i : Nat)
    (hL : 1 ≤ w.length) (hH : w.length ≤ H) (hbuf : buf.length = H + B) (hi : i < B) :
    LowPassFilter.call { m_weights := w, m_data_block := H } buf (i : Int)
      = some (dot w (windowBefore buf H i w.length)) ∧
    (windowBefore buf H i w.length).length = w.length ∧
    (∀ v : ℚ, LowPassFilter.call { m_weights := w, m_data_block := H } (buf.set (H + i) v) (i : Int)
      = LowPassFilter.call { m_weights := w, m_data_block := H } buf (i : Int)) ∧
    (∀ x : List ℚ, w.length = 10 → 200 ≤ x.length →
      ∃ y, mainOutput w 100 10 x = some y ∧
        y[100]? = some (dot w ((x.drop 90).take 10))) := by
  have hcall := call_eq w buf H i hH (by omega)
  refine ⟨?_, ?_, ?_, ?_⟩
  · rw [hcall, windowBefore, dot_window]
  · rw [windowBefore, List.length_take, List.length_drop]
    omega
  · intro v
    rw [hcall, call_eq w _ H i hH (by rw [List.length_set]; omega)]
    congr 1
    apply Finset.sum_congr rfl
    intro k hk
    have hk : k < w.length := Finset.mem_range.mp hk
    simp only [List.getD_eq_getElem?_getD]
    rw [List.getElem?_set_ne (by omega)]
  · intro x hw hx
    have hnb : 100 < n_blocks x.length 100 * 100 := by
      rw [n_blocks]
      have := Nat.div_add_mod x.length 100
      have := Nat.mod_lt x.length (by decide : 100 > 0)
      omega
    refine ⟨_, mainOutput_eq w x 100 10 (by decide) (by omega), ?_⟩
    rw [onePass_getElem_opt w x _ 100 hnb, onePassAt_eq_dot w x 100 (by omega), hw]

theorem window_before_current_witness :
    (1 ≤ ([1, 2] : List ℚ).length ∧ ([1, 2] : List ℚ).length ≤ 2 ∧
      ([3, 4, 5, 6] : List ℚ).length = 2 + 2 ∧ 1 < 2) ∧
    LowPassFilter.call { m_weights := [1, 2], m_data_block := 2 } [3, 4, 5, 6] ((1 : Nat) : Int)
      = some (dot [1, 2] (windowBefore [3, 4, 5, 6] 2 1 ([1, 2] : List ℚ).length)) :=
  ⟨⟨by decide, by decide, by decide, by decide⟩,
    (window_before_current [1, 2] [3, 4, 5, 6] 2 2 1 (by decide) (by decide) (by decide)
      (by decide)).1⟩

/-- C2, as stated, fails: with two weights and the halo size `H = L - 1 = 1`
the window of the first output starts at buffer index `-1`, before the start
of the working buffer; the read is outside of the buffer and the run of the
loop is undefined. -/
theorem halo_one_short_reads_before_buffer :
    ([1, 2] : List ℚ).length - 1 ≤ 1 ∧
    LowPassFilter.windowStart { m_weights := [1, 2], m_data_block := 1 } ((0 : Nat) : Int) = -1 ∧
    LowPassFilter.call { m_weights := [1, 2], m_data_block := 1 } [0, 5, 7] ((0 : Nat) : Int)
      = none ∧
    mainOutput [1, 2] 2 1 [5, 7] = none ∧
    mainOutput [1, 2] 2 1 [5, 7] ≠ some (onePass [1, 2] [5, 7] 2) := by
  have h : mainOutput [1, 2] 2 1 [5, 7] = none := by
    rw [mainOutput, main_eq_loop _ _ _ _ (by decide)]
    have hq : ([5, 7] : List ℚ).length / 2 = 0 + 1 := by decide
    rw [hq, loop_undefined [1, 2] 2 1 (by decide) (by decide)]
    rfl
  refine ⟨by decide, by decide, ?_, h, ?_⟩
  · simp [LowPassFilter.call, LowPassFilter.windowStart, inner_product, deref]
  · rw [h]
    exact fun hh => Option.noConfusion hh

/-- C2, amended (halo bound `H ≥ L` in place of `H ≥ L - 1`).  For weights of
length `L`, and any two splits of the same sequence into blocks, of sizes
`B1 ≥ 1` and `B2 ≥ 1` with halo sizes `H1 ≥ L` and `H2 ≥ L`, both runs return
the same output, which is the one-pass result; filtering in one pass is the
split into a single block (`B2 = N`).  Every window index of every output
sample lies inside the working buffer. -/
theorem split_independent (w x : List ℚ) (B1 H1 n1 B2 H2 n2 : Nat)
    (hB1 : 1 ≤ B1) (hH1 : w.length ≤ H1) (hx1 : x.length = n1 * B1)
    (hB2 : 1 ≤ B2) (hH2 : w.length ≤ H2) (hx2 : x.length = n2 * B2) :
    ∃ y, mainOutput w B1 H1 x = some y ∧ mainOutput w B2 H2 x = some y ∧
      y.length = x.length ∧ y = onePass w x x.length ∧
      ∀ i k : Nat, i < B1 → k < w.length →
        0 ≤ LowPassFilter.windowStart { m_weights := w, m_data_block := H1 } (i : Int) + (k : Int) ∧
        LowPassFilter.windowStart { m_weights := w, m_data_block := H1 } (i : Int) + (k : Int)
          < ((H1 + B1 : Nat) : Int) := by
  have h1 : n_blocks x.length B1 * B1 = x.length := by
    rw [hx1, n_blocks_mul n1 B1 hB1]
  have h2 : n_blocks x.length B2 * B2 = x.length := by
    rw [hx2, n_blocks_mul n2 B2 hB2]
  refine ⟨onePass w x x.length, ?_, ?_, onePass_length _ _ _, rfl, ?_⟩
  · rw [mainOutput_eq w x B1 H1 hB1 hH1, h1]
  · rw [mainOutput_eq w x B2 H2 hB2 hH2, h2]
  · intro i k hi hk
    simp only [LowPassFilter.windowStart]
    constructor <;> omega

theorem split_independent_witness :
    (1 ≤ 2 ∧ ([1, 2] : List ℚ).length ≤ 2 ∧ ([5, 7, 9, 11] : List ℚ).length = 2 * 2 ∧
      1 ≤ 4 ∧ ([1, 2] : List ℚ).length ≤ 3 ∧ ([5, 7, 9, 11] : List ℚ).length = 1 * 4) ∧
    ∃ y, mainOutput [1, 2] 2 2 [5, 7, 9, 11] = some y ∧
      mainOutput [1, 2] 4 3 [5, 7, 9, 11] = some y :=
  ⟨⟨by decide, by decide, by decide, by decide, by decide, by decide⟩,
    (split_independent [1, 2] [5, 7, 9, 11] 2 2 2 4 3 1 (by decide) (by decide) (by decide)
      (by decide) (by decide) (by decide)).imp (fun _ h => ⟨h.1, h.2.1⟩)⟩

/-- C5, as stated, fails: with the single weight `1`, block size 2 and halo
size 1 the input `5, 7, 9, 11` gives the output `0, 5, 7, 9`, the input
delayed by one sample, and not the input itself. -/
theorem single_weight_not_passthrough :
    mainOutput [1] 2 1 [5, 7, 9, 11] = some [0, 5, 7, 9] ∧
    mainOutput [1] 2 1 [5, 7, 9, 11] ≠ some [5, 7, 9, 11] := by
  have h : mainOutput [1] 2 1 [5, 7, 9, 11] = some [0, 5, 7, 9] := by
    simp [mainOutput, main, n_blocks, loop, loopBody, initState, readBlock, Reader.read, store,
      transform, LowPassFilter.call, LowPassFilter.windowStart, inner_product, deref, rotate,
      std_copy, List.range, List.range.loop]
  refine ⟨h, ?_⟩
  rw [h]
  intro hh
  have h5 : (0 : ℚ) = 5 := List.head_eq_of_cons_eq (Option.some.inj hh)
  norm_num at h5

/-- C5, amended.  With the single weight `1`, for every input, block size
`B ≥ 1` and halo size `H ≥ 1`, the output is the input delayed by one sample:
a leading `0` followed by the input, cut to the `floor(N / B) * B` processed
positions; so `output[0] = 0` and `output[p + 1] = input[p]`. -/
theorem single_weight_delay (x : List ℚ) (B H : Nat) (hB : 1 ≤ B) (hH : 1 ≤ H) :
    mainOutput [1] B H x = some ((0 :: x).take (n_blocks x.length B * B)) ∧
    ∀ y, mainOutput [1] B H x = some y →
      (0 < y.length → y[0]? = some 0) ∧
      ∀ p, p + 1 < y.length → ∃ v, x[p]? = some v ∧ y[p + 1]? = some v := by
  have hm : n_blocks x.length B * B ≤ x.length := Nat.div_mul_le_self _ _
  have hout : mainOutput [1] B H x = some ((0 :: x).take (n_blocks x.length B * B)) := by
    rw [mainOutput_eq [1] x B H hB (by simpa using hH)]
    congr 1
    apply List.ext_getElem?
    intro p
    by_cases hp : p < n_blocks x.length B * B
    · rw [onePass_getElem_opt _ _ _ _ hp, List.getElem?_take_of_lt hp]
      cases p with
      | zero => simp [onePassAt, extended]
      | succ q =>
        have hq : q < x.length := by omega
        have he : extended x (((q + 1 : Nat) : Int) - (([1] : List ℚ).length : Int) + ((0 : Nat) : Int))
            = x.getD q 0 := extended_natCast x _ q (by simp)
        rw [onePassAt, List.length_singleton, Finset.sum_range_one]
        rw [List.length_singleton] at he
        rw [he, List.getElem?_cons_succ, List.getElem?_eq_getElem hq]
        simp [List.getD_eq_getElem?_getD, List.getElem?_eq_getElem hq]
    · rw [List.getElem?_eq_none (by rw [onePass_length]; omega),
        List.getElem?_eq_none (by rw [List.length_take]; omega)]
  refine ⟨hout, ?_⟩
  intro y hy
  rw [hout] at hy
  have hy : (0 :: x).take (n_blocks x.length B * B) = y := Option.some.inj hy
  subst hy
  constructor
  · intro hpos
    rw [List.length_take] at hpos
    rw [List.getElem?_take_of_lt (by omega)]
    simp
  · intro p hp
    rw [List.length_take, List.length_cons] at hp
    have hq : p < x.length := by omega
    refine ⟨x[p], List.getElem?_eq_getElem hq, ?_⟩
    rw [List.getElem?_take_of_lt (by omega), List.getElem?_cons_succ, List.getElem?_eq_getElem hq]

theorem single_weight_delay_witness :
    (1 ≤ 2 ∧ 1 ≤ 1) ∧
    mainOutput [1] 2 1 [5, 7, 9, 11, 13]
      = some ((0 :: [5, 7, 9, 11, 13]).take (n_blocks ([5, 7, 9, 11, 13] : List ℚ).length 2 * 2)) :=
  ⟨⟨by decide, by decide⟩, (single_weight_delay [5, 7, 9, 11, 13] 2 1 (by decide) (by decide)).1⟩

theorem extended_congr (x x1 : List ℚ) (q : Int)
    (h : ∀ n : Nat, q = (n : Int) → x.getD n 0 = x1.getD n 0) :
    extended x q = extended x1 q := by
  by_cases hneg : q < 0
  · rw [extended_neg _ _ hneg, extended_neg _ _ hneg]
  · have hq : q = ((q.toNat : Nat) : Int) := by omega
    rw [extended_natCast x q q.toNat hq, extended_natCast x1 q q.toNat hq]
    exact h _ hq

/-- The sample `p` of the one-pass result depends on the input positions
`p - L .. p - 1` only. -/
theorem onePassAt_congr (w x x1 : List ℚ) (p : Nat)
    (h : ∀ q : Nat, p ≤ q + w.length → q < p → x[q]? = x1[q]?) :
    onePassAt w x p = onePassAt w x1 p := by
  rw [onePassAt, onePassAt]
  apply Finset.sum_congr rfl
  intro k hk
  have hk : k < w.length := Finset.mem_range.mp hk
  congr 1
  apply extended_congr
  intro n hn
  rw [List.getD_eq_getElem?_getD, List.getD_eq_getElem?_getD, h n (by omega) (by omega)]

/-- C12. The final processed input sample never influences the output: for
weights of length `L`, `H ≥ L`, `B ≥ 1` and two inputs of length `n * B` that
agree on all positions but the last one, `n * B - 1`, both runs of `main`
return the same output stream.  More generally the output at position `p`
depends on the input positions `p - L .. p - 1` only: two inputs that agree
there have the same output at `p`.  (The proof needs neither `L ≥ 1` nor
`n ≥ 1`.) -/
theorem last_sample_no_influence (w x x1 : List ℚ) (B H n : Nat)
    (hH : w.length ≤ H) (hB : 1 ≤ B) (hx : x.length = n * B) (hx1 : x1.length = n * B)
    (hagree : ∀ q : Nat, q + 1 < n * B → x[q]? = x1[q]?) :
    (∃ y, mainOutput w B H x = some y ∧ mainOutput w B H x1 = some y ∧ y.length = n * B) ∧
    ∀ (u v : List ℚ) (p : Nat), p < n_blocks u.length B * B → p < n_blocks v.length B * B →
      (∀ q : Nat, p ≤ q + w.length → q < p → u[q]? = v[q]?) →
      ∃ yu yv r, mainOutput w B H u = some yu ∧ mainOutput w B H v = some yv ∧
        yu[p]? = some r ∧ yv[p]? = some r := by
  have hn : n_blocks x.length B = n := by rw [hx]; exact n_blocks_mul n B hB
  have hn1 : n_blocks x1.length B = n := by rw [hx1]; exact n_blocks_mul n B hB
  constructor
  · refine ⟨onePass w x (n * B), ?_, ?_, onePass_length _ _ _⟩
    · rw [mainOutput_eq w x B H hB hH, hn]
    · rw [mainOutput_eq w x1 B H hB hH, hn1]
      congr 1
      apply List.map_congr_left
      intro p hp
      have hp : p < n * B := List.mem_range.mp hp
      exact (onePassAt_congr w x x1 p (fun q _ hq => hagree q (by omega))).symm
  · intro u v p hpu hpv huv
    refine ⟨_, _, onePassAt w u p, mainOutput_eq w u B H hB hH, mainOutput_eq w v B H hB hH,
      onePass_getElem_opt w u _ p hpu, ?_⟩
    rw [onePass_getElem_opt w v _ p hpv, onePassAt_congr w u v p huv]

theorem last_sample_no_influence_witness :
    (([1, 2] : List ℚ).length ≤ 2 ∧ 1 ≤ 2 ∧ ([5, 7, 9, 11] : List ℚ).length = 2 * 2 ∧
      ([5, 7, 9, 100] : List ℚ).length = 2 * 2) ∧
    ∃ y, mainOutput [1, 2] 2 2 [5, 7, 9, 11] = some y ∧
      mainOutput [1, 2] 2 2 [5, 7, 9, 100] = some y ∧ y.length = 2 * 2 :=
  ⟨⟨by decide, by decide, by decide, by decide⟩,
    (last_sample_no_influence [1, 2] [5, 7, 9, 11] [5, 7, 9, 100] 2 2 2 (by decide) (by decide)
      (by decide) (by decide) (by
        intro q hq
        have hq3 : q < 3 := by omega
        interval_cases q <;> rfl)).1⟩

theorem onePassAt_zero (w x : List ℚ) : onePassAt w x 0 = 0 := by
  rw [onePassAt]
  apply Finset.sum_eq_zero
  intro k hk
  have hk : k < w.length := Finset.mem_range.mp hk
  rw [extended_neg x _ (by omega), mul_zero]

theorem n_blocks_pos (N B : Nat) (hB : 1 ≤ B) (hN : B ≤ N) : 0 < n_blocks N B * B := by
  have h : 0 < n_blocks N B := Nat.div_pos hN hB
  exact Nat.mul_pos h hB

/-- C13. The first output of the stream is always zero: for weights of length
`L`, `H ≥ L`, `B ≥ 1` and an input with at least one full block, every window
index of `operator()(0)` lies in the halo `[0, H)`, which holds zeros in the
first block; `processed_block[0]` of the first block is `0`, and so is the
first value of the output stream, whatever the weights and the input. -/
theorem first_output_zero (w x : List ℚ) (B H : Nat)
    (hH : w.length ≤ H) (hB : 1 ≤ B) (hx : B ≤ x.length) :
    (∀ k : Nat, k < w.length →
      0 ≤ LowPassFilter.windowStart { m_weights := w, m_data_block := H } ((0 : Nat) : Int) + (k : Int) ∧
      LowPassFilter.windowStart { m_weights := w, m_data_block := H } ((0 : Nat) : Int) + (k : Int)
        < (H : Int)) ∧
    (∀ j : Nat, j < H → (readBlock B H (initState B H x)).halo_and_block[j]? = some 0) ∧
    (∃ processed_block,
      transform { m_weights := w, m_data_block := H }
        (readBlock B H (initState B H x)).halo_and_block (List.range B) = some processed_block ∧
      processed_block[0]? = some 0) ∧
    ∃ y, mainOutput w B H x = some y ∧ y[0]? = some 0 := by
  have hx1 : (0 + 1) * B ≤ x.length := by simpa using hx
  obtain ⟨hlen, hbuf, _, _⟩ := readBlock_spec w x B H 0 _ (blockInv_init w x B H) hx1
  have hhalo : ∀ j : Nat, j < H →
      (readBlock B H (initState B H x)).halo_and_block[j]? = some 0 := by
    intro j hj
    rw [hbuf j (by omega), extended_neg _ _ (by simp; omega)]
  refine ⟨?_, hhalo, ?_, ?_⟩
  · intro k hk
    simp only [LowPassFilter.windowStart]
    constructor <;> omega
  · obtain ⟨out, h1, _, h3⟩ := transform_getElem_opt { m_weights := w, m_data_block := H }
      (readBlock B H (initState B H x)).halo_and_block
      (fun i => ∑ k in Finset.range w.length,
        w.getD k 0 * (readBlock B H (initState B H x)).halo_and_block.getD (H + i - w.length + k) 0)
      B 0 (fun j hj => call_eq w _ H j hH (by omega)) (by omega)
    refine ⟨out, h1, ?_⟩
    rw [h3]
    congr 1
    apply Finset.sum_eq_zero
    intro k hk
    have hk : k < w.length := Finset.mem_range.mp hk
    rw [getD_of_getElem_opt _ _ _ (hhalo (H + 0 - w.length + k) (by omega)), mul_zero]
  · refine ⟨_, mainOutput_eq w x B H hB hH, ?_⟩
    rw [onePass_getElem_opt w x _ 0 (n_blocks_pos _ _ hB hx), onePassAt_zero]

theorem first_output_zero_witness :
    (([1, 2] : List ℚ).length ≤ 2 ∧ 1 ≤ 2 ∧ 2 ≤ ([5, 7, 9, 11, 13] : List ℚ).length) ∧
    ∃ y, mainOutput [1, 2] 2 2 [5, 7, 9, 11, 13] = some y ∧ y[0]? = some 0 :=
  ⟨⟨by decide, by decide, by decide⟩,
    (first_output_zero [1, 2] [5, 7, 9, 11, 13] 2 2 (by decide) (by decide) (by decide)).2.2.2⟩

theorem axpy_length (a : ℚ) (x y : List ℚ) (h : x.length = y.length) :
    (axpy a x y).length = x.length := by
  simp [axpy, h]

theorem axpy_getD (a : ℚ) (x y : List ℚ) (h : x.length = y.length) (n : Nat) :
    (axpy a x y).getD n 0 = a * x.getD n 0 + y.getD n 0 := by
  induction x generalizing y n with
  | nil =>
    cases y with
    | nil => simp [axpy]
    | cons _ _ => simp at h
  | cons x0 xs ih =>
    cases y with
    | nil => simp at h
    | cons y0 ys =>
      have h1 : xs.length = ys.length := by simpa using h
      cases n with
      | zero => simp [axpy]
      | succ m =>
        have := ih ys h1 m
        simpa [axpy] using this

theorem extended_axpy (a : ℚ) (x y : List ℚ) (h : x.length = y.length) (q : Int) :
    extended (axpy a x y) q = a * extended x q + extended y q := by
  by_cases hneg : q < 0
  · rw [extended_neg _ _ hneg, extended_neg _ _ hneg, extended_neg _ _ hneg]
    ring
  · have hq : q = ((q.toNat : Nat) : Int) := by omega
    rw [extended_natCast _ q q.toNat hq, extended_natCast x q q.toNat hq,
      extended_natCast y q q.toNat hq, axpy_getD a x y h]

theorem onePassAt_axpy (w : List ℚ) (a : ℚ) (x y : List ℚ) (h : x.length = y.length) (p : Nat) :
    onePassAt w (axpy a x y) p = a * onePassAt w x p + onePassAt w y p := by
  rw [onePassAt, onePassAt, onePassAt, Finset.mul_sum, ← Finset.sum_add_distrib]
  apply Finset.sum_congr rfl
  intro k _
  rw [extended_axpy a x y h]
  ring

theorem axpy_map (a : ℚ) (g h : Nat → ℚ) (l : List Nat) :
    axpy a (l.map g) (l.map h) = l.map (fun p => a * g p + h p) := by
  induction l with
  | nil => simp [axpy]
  | cons p ps ih =>
    rw [axpy] at ih ⊢
    simp only [List.map_cons, List.zipWith_cons_cons, ih]

/-- C14. Linearity in the input: for fixed weights of length `L`, `H ≥ L` and
`B ≥ 1`, inputs `x`, `y` of the same length `n * B` and a scalar `a`, the runs
of `main` on `x`, on `y` and on `a * x + y` return, and the output on
`a * x + y` is `a` times the output on `x` plus the output on `y`, element by
element.  (The proof does not need `L ≥ 1`.) -/
theorem output_linear (w x y : List ℚ) (a : ℚ) (B H n : Nat)
    (hH : w.length ≤ H) (hB : 1 ≤ B) (hx : x.length = n * B) (hy : y.length = n * B) :
    ∃ ox oy, mainOutput w B H x = some ox ∧ mainOutput w B H y = some oy ∧
      ox.length = n * B ∧ oy.length = n * B ∧
      mainOutput w B H (axpy a x y) = some (axpy a ox oy) ∧
      ∀ p : Nat, p < n * B →
        (axpy a ox oy)[p]? = some (a * ox.getD p 0 + oy.getD p 0) := by
  have hxy : x.length = y.length := by rw [hx, hy]
  have hz : (axpy a x y).length = n * B := by rw [axpy_length a x y hxy, hx]
  have hn : ∀ u : List ℚ, u.length = n * B → n_blocks u.length B = n := by
    intro u hu; rw [hu]; exact n_blocks_mul n B hB
  have hlin : onePass w (axpy a x y) (n * B)
      = axpy a (onePass w x (n * B)) (onePass w y (n * B)) := by
    rw [onePass, onePass, onePass, axpy_map]
    apply List.map_congr_left
    intro p _
    exact onePassAt_axpy w a x y hxy p
  refine ⟨onePass w x (n * B), onePass w y (n * B), ?_, ?_, onePass_length _ _ _,
    onePass_length _ _ _, ?_, ?_⟩
  · rw [mainOutput_eq w x B H hB hH, hn x hx]
  · rw [mainOutput_eq w y B H hB hH, hn y hy]
  · rw [mainOutput_eq w _ B H hB hH, hn _ hz, hlin]
  · intro p hp
    have hlen : (axpy a (onePass w x (n * B)) (onePass w y (n * B))).length = n * B := by
      rw [axpy_length _ _ _ (by rw [onePass_length, onePass_length]), onePass_length]
    have hlt : p < (axpy a (onePass w x (n * B)) (onePass w y (n * B))).length := by
      rw [hlen]; exact hp
    rw [← axpy_getD a _ _ (by rw [onePass_length, onePass_length]) p,
      List.getD_eq_getElem?_getD, List.getElem?_eq_getElem hlt]
    rfl

theorem output_linear_witness :
    (([1, 2] : List ℚ).length ≤ 2 ∧ 1 ≤ 2 ∧ ([5, 7, 9, 11] : List ℚ).length = 2 * 2 ∧
      ([1, 0, 2, 3] : List ℚ).length = 2 * 2) ∧
    ∃ ox oy, mainOutput [1, 2] 2 2 [5, 7, 9, 11] = some ox ∧
      mainOutput [1, 2] 2 2 [1, 0, 2, 3] = some oy ∧
      mainOutput [1, 2] 2 2 (axpy 3 [5, 7, 9, 11] [1, 0, 2, 3]) = some (axpy 3 ox oy) :=
  ⟨⟨by decide, by decide, by decide, by decide⟩,
    (output_linear [1, 2] [5, 7, 9, 11] [1, 0, 2, 3] 3 2 2 2 (by decide) (by decide) (by decide)
      (by decide)).imp (fun _ h => h.imp (fun _ g => ⟨g.1, g.2.1, g.2.2.2.2.1⟩))⟩

/-- C11, as stated, fails: with two weights, `H = 2` and `B = 2` the output at
position `p = L - 1 = 1` has its window start at buffer index `1`, inside the
halo `[0, 2)` of the first block, and the element it reads there is the zero
the buffer was initialised with.  With `L = 10`, `H = 10` the tenth output
(`i = 9`) of the first block starts its window at index `9`, inside the halo
`[0, 10)`: the first 10 outputs, not the first 9, read the zero halo. -/
theorem edge_effect_at_position_L_minus_one :
    ([1, 2] : List ℚ).length - 1 ≤ 1 ∧
    LowPassFilter.windowStart { m_weights := [1, 2], m_data_block := 2 } ((1 : Nat) : Int) = 1 ∧
    (readBlock 2 2 (initState 2 2 [5, 7])).halo_and_block = [0, 0, 5, 7] ∧
    deref (readBlock 2 2 (initState 2 2 [5, 7])).halo_and_block
      (LowPassFilter.windowStart { m_weights := [1, 2], m_data_block := 2 } ((1 : Nat) : Int))
      = some 0 ∧
    LowPassFilter.windowStart { m_weights := List.replicate 10 1, m_data_block := 10 }
      ((9 : Nat) : Int) = 9 := by
  refine ⟨by decide, by decide, ?_, ?_, by decide⟩
  · simp [readBlock, initState, Reader.read, store, List.replicate]
  · simp [readBlock, initState, Reader.read, store, List.replicate, deref,
      LowPassFilter.windowStart]

/-- C11, amended (`L` in place of `L - 1`).  Edge effects are confined to the
first `L` outputs.  For weights of length `L ≥ 1`, `H ≥ L`, `B ≥ 1` and an
output position `p` of the run, the loop reaches the block of `p`, and with
that block loaded: if `p ≥ L`, every element the window of output `p` reads is
a real input sample, the one at position `p - L + k`; if `p < L`, the first
`L - p` elements it reads are zero whatever the input, left from the
initialisation of the halo.  In the first block the window element `k` of
output `p` lies in the halo `[0, H)` exactly when `p + k < L`.  So for
`L = 10` exactly the first 10 outputs are computed against the zero halo. -/
theorem edge_effects_first_L (w x : List ℚ) (B H p : Nat)
    (hL : 1 ≤ w.length) (hH : w.length ≤ H) (hB : 1 ≤ B)
    (hp : p < n_blocks x.length B * B) :
    ∃ s, loop { m_weights := w, m_data_block := H } B H (p / B) (initState B H x) = some s ∧
      (w.length ≤ p → ∀ k : Nat, k < w.length →
        ∃ v, x[p - w.length + k]? = some v ∧
          deref (readBlock B H s).halo_and_block
            (LowPassFilter.windowStart { m_weights := w, m_data_block := H } ((p % B : Nat) : Int)
              + (k : Int)) = some v) ∧
      (p < w.length → ∀ k : Nat, k < w.length - p →
        deref (readBlock B H s).halo_and_block
          (LowPassFilter.windowStart { m_weights := w, m_data_block := H } ((p % B : Nat) : Int)
            + (k : Int)) = some 0) ∧
      (p < w.length →
        deref (readBlock B H s).halo_and_block
          (LowPassFilter.windowStart { m_weights := w, m_data_block := H } ((p % B : Nat) : Int))
          = some 0) ∧
      (p < B → ∀ k : Nat, k < w.length →
        (LowPassFilter.windowStart { m_weights := w, m_data_block := H } ((p : Nat) : Int)
          + (k : Int) < (H : Int) ↔ p + k < w.length)) := by
  have hb : p / B < n_blocks x.length B :=
    Nat.div_lt_of_lt_mul (by rw [Nat.mul_comm]; exact hp)
  have hx1 : (p / B + 1) * B ≤ x.length := block_le_length x B _ hb
  have hx0 : (0 + p / B) * B ≤ x.length := by
    refine le_trans (Nat.mul_le_mul_right B ?_) hx1
    omega
  have hmul : (p / B + 1) * B = p / B * B + B := by ring
  have hdm : p / B * B + p % B = p := by
    rw [Nat.mul_comm]; exact Nat.div_add_mod p B
  have hi : p % B < B := Nat.mod_lt _ (by omega)
  obtain ⟨s, hs, hinv⟩ := loop_spec w x B H hB hH (p / B) 0 _ (blockInv_init w x B H) hx0
  rw [Nat.zero_add] at hinv
  obtain ⟨_, hbuf, _, _⟩ := readBlock_spec w x B H (p / B) s hinv hx1
  have hread : ∀ k : Nat, k < w.length →
      deref (readBlock B H s).halo_and_block
        (LowPassFilter.windowStart { m_weights := w, m_data_block := H } ((p % B : Nat) : Int)
          + (k : Int))
        = some (extended x ((p : Int) - (w.length : Int) + (k : Int))) := by
    intro k hk
    have hidx : LowPassFilter.windowStart { m_weights := w, m_data_block := H }
        ((p % B : Nat) : Int) + (k : Int) = ((H + p % B - w.length + k : Nat) : Int) := by
      simp only [LowPassFilter.windowStart]; omega
    rw [hidx, deref_natCast, hbuf _ (by omega)]
    congr 2
    omega
  refine ⟨s, hs, ?_, ?_, ?_, ?_⟩
  · intro hge k hk
    have hlt : p - w.length + k < x.length := by omega
    refine ⟨x[p - w.length + k], List.getElem?_eq_getElem hlt, ?_⟩
    rw [hread k hk, extended_natCast x _ (p - w.length + k) (by omega),
      List.getD_eq_getElem?_getD, List.getElem?_eq_getElem hlt]
    rfl
  · intro hlt k hk
    rw [hread k (by omega), extended_neg x _ (by omega)]
  · intro hlt
    have h0 := hread 0 (by omega)
    rw [extended_neg x _ (by omega)] at h0
    simpa using h0
  · intro _ k _
    simp only [LowPassFilter.windowStart]
    omega

theorem edge_effects_first_L_witness :
    (1 ≤ ([1, 2] : List ℚ).length ∧ ([1, 2] : List ℚ).length ≤ 2 ∧ 1 ≤ 2 ∧
      1 < n_blocks ([5, 7, 9, 11] : List ℚ).length 2 * 2) ∧
    ∃ s, loop { m_weights := [1, 2], m_data_block := 2 } 2 2 (1 / 2) (initState 2 2 [5, 7, 9, 11])
        = some s ∧
      (1 < ([1, 2] : List ℚ).length →
        deref (readBlock 2 2 s).halo_and_block
          (LowPassFilter.windowStart { m_weights := [1, 2], m_data_block := 2 } ((1 % 2 : Nat) : Int))
          = some 0) :=
  ⟨⟨by decide, by decide, by decide, by decide⟩,
    (edge_effects_first_L [1, 2] [5, 7, 9, 11] 2 2 1 (by decide) (by decide) (by decide)
      (by decide)).imp (fun _ h => ⟨h.1, h.2.2.2.1⟩)⟩

end Lpf
